import Mathlib

/-!
Verification of the selection-anchoring algorithm of crabgrass-2.

The algorithm appears inline in two request handlers
(`kernel_file_selection_action` in `api/routes/agent.py` and
`objective_file_selection_action` in `api/routes/objectives.py`).
Strings are modelled as `List Char`; Python string builtins
(`str.find`, `str.rfind`, `str.split`, `str.join`, slicing,
`str.isspace`) are modelled by the `py*` functions below, and the two
handlers' inline anchoring code is transcribed as `kernelResolve` and
`objectiveResolve`.
-/

/-- Model of Python `str.isspace` / regex whitespace on a single character:
ASCII whitespace, the C1 controls Python treats as space, and the Unicode
space separators. -/
def pyIsSpace (c : Char) : Bool :=
  let n := c.toNat
  (9 ≤ n && n ≤ 13) || (28 ≤ n && n ≤ 32) || n == 133 || n == 160 ||
  n == 0x1680 || (0x2000 ≤ n && n ≤ 0x200a) || n == 0x2028 || n == 0x2029 ||
  n == 0x202f || n == 0x205f || n == 0x3000

/-- The Unicode decimal-digit ranges (category Nd) as matched by the `\\d`
of a Python 3 `str` regex without `re.ASCII`. -/
def ndRanges : List (Nat × Nat) :=
  [(0x30, 0x39), (0x660, 0x669), (0x6f0, 0x6f9), (0x7c0, 0x7c9), (0x966, 0x96f),
   (0x9e6, 0x9ef), (0xa66, 0xa6f), (0xae6, 0xaef), (0xb66, 0xb6f), (0xbe6, 0xbef),
   (0xc66, 0xc6f), (0xce6, 0xcef), (0xd66, 0xd6f), (0xde6, 0xdef), (0xe50, 0xe59),
   (0xed0, 0xed9), (0xf20, 0xf29), (0x1040, 0x1049), (0x1090, 0x1099), (0x17e0, 0x17e9),
   (0x1810, 0x1819), (0x1946, 0x194f), (0x19d0, 0x19d9), (0x1a80, 0x1a89), (0x1a90, 0x1a99),
   (0x1b50, 0x1b59), (0x1bb0, 0x1bb9), (0x1c40, 0x1c49), (0x1c50, 0x1c59), (0xa620, 0xa629),
   (0xa8d0, 0xa8d9), (0xa900, 0xa909), (0xa9d0, 0xa9d9), (0xa9f0, 0xa9f9), (0xaa50, 0xaa59),
   (0xabf0, 0xabf9), (0xff10, 0xff19), (0x104a0, 0x104a9), (0x10d30, 0x10d39),
   (0x11066, 0x1106f), (0x110f0, 0x110f9), (0x11136, 0x1113f), (0x111d0, 0x111d9),
   (0x112f0, 0x112f9), (0x11450, 0x11459), (0x114d0, 0x114d9), (0x11650, 0x11659),
   (0x116c0, 0x116c9), (0x11730, 0x11739), (0x118e0, 0x118e9), (0x11950, 0x11959),
   (0x11c50, 0x11c59), (0x11d50, 0x11d59), (0x11da0, 0x11da9), (0x16a60, 0x16a69),
   (0x16ac0, 0x16ac9), (0x16b50, 0x16b59), (0x1d7ce, 0x1d7ff), (0x1e140, 0x1e149),
   (0x1e2f0, 0x1e2f9), (0x1e950, 0x1e959), (0x1fbf0, 0x1fbf9)]

/-- Model of the Python regex `\\d` on a single character: any Unicode
decimal digit, not only ASCII `0`-`9`. -/
def pyIsDigit (c : Char) : Bool :=
  ndRanges.any (fun r => r.1 ≤ c.toNat && c.toNat ≤ r.2)

/-- One step of splitting on whitespace, consuming characters from the
right: a whitespace character closes the token to its right (inserting an
empty boundary token when needed), a non-whitespace character extends it. -/
def splitStep (c : Char) (acc : List (List Char)) : List (List Char) :=
  if pyIsSpace c then
    match acc with
    | [] => []
    | [] :: R => [] :: R
    | t :: R => [] :: t :: R
  else
    match acc with
    | [] => [[c]]
    | t :: R => (c :: t) :: R

/-- Discard the empty boundary token left at the head by leading
whitespace, if any. -/
def dropEmptyHead : List (List Char) → List (List Char)
  | [] :: R => R
  | R => R

/-- Model of Python `str.split()` with no separator: maximal runs of
non-whitespace characters, whitespace discarded (see
`pySplitWs_cons_ws` / `pySplitWs_cons_nws` for the run characterisation). -/
def pySplitWs (s : List Char) : List (List Char) :=
  dropEmptyHead (s.foldr splitStep [])

/-- Model of Python `' '.join` on a list of token strings. -/
def spJoin : List (List Char) → List Char
  | [] => []
  | [t] => t
  | t :: u :: ts => t ++ ' ' :: spJoin (u :: ts)

/-- Model of `' '.join(s.split())`: the whitespace normalisation used by the
anchoring code. -/
def normWs (s : List Char) : List Char := spJoin (pySplitWs s)

/-- Model of Python `str.find`: index of the first occurrence of `sub` in
`s`, or `none` where Python returns `-1`. -/
def pyFind (s sub : List Char) : Option Nat :=
  if sub.isPrefixOf s then some 0
  else
    match s with
    | [] => none
    | _ :: t => (pyFind t sub).map (· + 1)

/-- Index of the last occurrence of `c` in `l`, if any (helper for
Python `str.rfind`). -/
def rfindAux : List Char → Char → Option Nat
  | [], _ => none
  | a :: l, c =>
    match rfindAux l c with
    | some j => some (j + 1)
    | none => if a == c then some 0 else none

/-- Model of Python `s.rfind(c, 0, e)`: last index `< e` holding `c`. -/
def pyRfind (s : List Char) (c : Char) (e : Nat) : Option Nat :=
  rfindAux (s.take e) c

/-- Model of the Python slice `s[a:b]` for natural `a ≤ b` (clamped at the
ends like Python). -/
def pySlice (s : List Char) (a b : Nat) : List Char := (s.take b).drop a

/-- Length of the maximal whitespace run of `stored` starting at `i`. -/
def wsRunLen (stored : List Char) (i : Nat) : Nat :=
  ((stored.drop i).takeWhile pyIsSpace).length

/-- One iteration of the handlers' map-back `while` loop: from raw index
`i`, consume a whole whitespace run (counted as one normalised position) or
a single non-whitespace character. -/
def mapBackStep (stored : List Char) (i : Nat) : Nat :=
  if h : i < stored.length then
    if pyIsSpace stored[i] then i + wsRunLen stored i else i + 1
  else i

/-- The handlers' map-back `while` loop: starting at raw index `i`, advance
`n` normalised positions (stopping early at the end of `stored`). -/
def mapBack (stored : List Char) : Nat → Nat → Nat
  | i, 0 => i
  | i, n + 1 => if i < stored.length then mapBack stored (mapBackStep stored i) n else i

/-- Steps 1-2 of the handlers: exact `find`, else whitespace-normalised
`find` mapped back to a raw index; `none` models the HTTP 400
"could not locate selected text" rejection. -/
def resolveStart (stored sel : List Char) : Option Nat :=
  match pyFind stored sel with
  | some i => some i
  | none =>
    match pyFind (normWs stored) (normWs sel) with
    | none => none
    | some ns => some (mapBack stored 0 ns)

/-- The handlers' `line_start`: one past the last newline before `i`, else
`0`. -/
def lineStartAt (stored : List Char) (i : Nat) : Nat :=
  match pyRfind stored '\n' i with
  | none => 0
  | some j => j + 1

/-- The handlers' `prefix = stored_content[line_start:actual_start]`. -/
def lineFrag (stored : List Char) (i : Nat) : List Char :=
  (stored.take i).drop (lineStartAt stored i)

/-- Model of the handlers' anchored regex
`^(\d+\.\s+|\*\s+|-\s+|\+\s+)$` applied to the line
fragment; its digit class matches any Unicode decimal digit (`pyIsDigit`). -/
def isListMarker (p : List Char) : Bool :=
  match p with
  | [] => false
  | c :: rest =>
    if c == '*' || c == '-' || c == '+' then !rest.isEmpty && rest.all pyIsSpace
    else
      let ds := p.takeWhile pyIsDigit
      match p.drop ds.length with
      | d :: w => !ds.isEmpty && d == '.' && !w.isEmpty && w.all pyIsSpace
      | [] => false

/-- The spec's wording of the list-marker shapes: one or more digits (in
the Unicode sense of the handlers' regex digit class, see `pyIsDigit`), a
period, then one or more whitespace characters; or one of `*`, `-`, `+`
followed by one or more whitespace characters. -/
def SpecMarker (p : List Char) : Prop :=
  (∃ ds w, p = ds ++ '.' :: w ∧ ds ≠ [] ∧ (∀ c ∈ ds, pyIsDigit c) ∧ w ≠ [] ∧ ∀ c ∈ w, pyIsSpace c) ∨
  (∃ c w, p = c :: w ∧ (c = '*' ∨ c = '-' ∨ c = '+') ∧ w ≠ [] ∧ ∀ x ∈ w, pyIsSpace x)

/-- Step 3 of the handlers: pull `actual_start` back to the line start when
the line fragment before it is exactly a list marker. -/
def adjStart (stored : List Char) (s0 : Nat) : Nat :=
  if isListMarker (lineFrag stored s0) then lineStartAt stored s0 else s0

/-- Step 4 of the handlers: when `stored[s1:e0]` differs from the selection
text, rescan candidate end offsets `len(sel) .. len(stored) - s1` for the
first whose whitespace-normalised slice matches; keep `e0` when none does. -/
def endFix (stored sel : List Char) (s1 e0 : Nat) : Nat :=
  if pySlice stored s1 e0 = sel then e0
  else
    match (List.range' sel.length (stored.length - s1 + 1 - sel.length)).find?
        (fun k => normWs ((stored.drop s1).take k) == normWs sel) with
    | some k => s1 + k
    | none => e0

/-- The anchoring computation of `kernel_file_selection_action`
(agent.py, lines 403-451): returns the resolved `(actual_start, actual_end)`
or `none` for the "could not locate selected text" rejection. -/
def kernelResolve (stored sel : List Char) : Option (Nat × Nat) :=
  match resolveStart stored sel with
  | none => none
  | some s0 =>
    let s1 := adjStart stored s0
    let e0 := s0 + sel.length
    some (s1, endFix stored sel s1 e0)

/-- The map-back `while` loop as transcribed from
`objective_file_selection_action`. -/
def objMapBack (stored : List Char) : Nat → Nat → Nat
  | i, 0 => i
  | i, n + 1 =>
    if h : i < stored.length then
      if pyIsSpace stored[i] then
        objMapBack stored (i + ((stored.drop i).takeWhile pyIsSpace).length) n
      else objMapBack stored (i + 1) n
    else i

/-- Steps 1-2 as transcribed from `objective_file_selection_action`
(objectives.py, lines 641-662). -/
def objResolveStart (stored sel : List Char) : Option Nat :=
  match pyFind stored sel with
  | some i => some i
  | none =>
    match pyFind (normWs stored) (normWs sel) with
    | none => none
    | some ns => some (objMapBack stored 0 ns)

/-- Step 3 as transcribed from `objective_file_selection_action`. -/
def objAdjStart (stored : List Char) (s0 : Nat) : Nat :=
  if isListMarker ((stored.take s0).drop (lineStartAt stored s0)) then
    lineStartAt stored s0
  else s0

/-- Step 4 as transcribed from `objective_file_selection_action`. -/
def objEndFix (stored sel : List Char) (s1 e0 : Nat) : Nat :=
  if pySlice stored s1 e0 = sel then e0
  else
    match (List.range' sel.length (stored.length - s1 + 1 - sel.length)).find?
        (fun k => normWs ((stored.drop s1).take k) == normWs sel) with
    | some k => s1 + k
    | none => e0

/-- The anchoring computation of `objective_file_selection_action`
(objectives.py, lines 637-683). -/
def objectiveResolve (stored sel : List Char) : Option (Nat × Nat) :=
  match objResolveStart stored sel with
  | none => none
  | some s0 =>
    let s1 := objAdjStart stored s0
    let e0 := s0 + sel.length
    some (s1, objEndFix stored sel s1 e0)

/-! ### Characterisation of `pyFind` (Python `str.find`) -/

theorem pyFind_eq_none : ∀ s sub : List Char, pyFind s sub = none ↔ ¬ sub <:+: s := by
  intro s
  induction s with
  | nil =>
    intro sub
    constructor
    · intro hn hc
      rw [List.infix_nil] at hc
      subst hc
      simp [pyFind, List.isPrefixOf] at hn
    · intro hni
      have hp : ¬ sub.isPrefixOf ([] : List Char) := by
        intro h
        exact hni (List.isPrefixOf_iff_prefix.mp h).isInfix
      simp [pyFind, hp]
  | cons a t ih =>
    intro sub
    by_cases h : sub.isPrefixOf (a :: t)
    · have hp := List.isPrefixOf_iff_prefix.mp h
      simp only [pyFind, h, if_true]
      constructor
      · intro hc
        exact absurd hc (by simp)
      · intro hc
        exact absurd hp.isInfix hc
    · have hp : ¬ sub <+: (a :: t) := fun hc => h (List.isPrefixOf_iff_prefix.mpr hc)
      simp only [pyFind]
      rw [if_neg h, Option.map_eq_none']
      rw [ih sub, List.infix_cons_iff]
      tauto

theorem pyFind_some : ∀ s sub i, pyFind s sub = some i →
    sub <+: s.drop i ∧ ∀ j, j < i → ¬ sub <+: s.drop j := by
  intro s
  induction s with
  | nil =>
    intro sub i h
    by_cases hp : sub.isPrefixOf ([] : List Char)
    · simp only [pyFind, hp, if_true, Option.some.injEq] at h
      subst h
      refine ⟨by simpa using List.isPrefixOf_iff_prefix.mp hp, ?_⟩
      intro j hj
      omega
    · simp [pyFind, hp] at h
  | cons a t ih =>
    intro sub i h
    by_cases hp : sub.isPrefixOf (a :: t)
    · simp only [pyFind, hp, if_true, Option.some.injEq] at h
      subst h
      refine ⟨by simpa using List.isPrefixOf_iff_prefix.mp hp, ?_⟩
      intro j hj
      omega
    · simp only [pyFind] at h
      rw [if_neg hp, Option.map_eq_some'] at h
      obtain ⟨i', hi', rfl⟩ := h
      obtain ⟨h1, h2⟩ := ih sub i' hi'
      refine ⟨by simpa using h1, ?_⟩
      intro j hj
      cases j with
      | zero =>
        simp only [List.drop_zero]
        exact fun hc => hp (List.isPrefixOf_iff_prefix.mpr hc)
      | succ j' =>
        simp only [List.drop_succ_cons]
        exact h2 j' (by omega)

theorem pyFind_eq_some_of : ∀ s sub i, sub <+: s.drop i →
    (∀ j, j < i → ¬ sub <+: s.drop j) → pyFind s sub = some i := by
  intro s
  induction s with
  | nil =>
    intro sub i h1 h2
    have h1' : sub <+: ([] : List Char) := by simpa using h1
    have hi : i = 0 := by
      by_contra hne
      exact h2 0 (Nat.pos_of_ne_zero hne) (by simpa using h1')
    subst hi
    have := List.isPrefixOf_iff_prefix.mpr h1'
    simp [pyFind, this]
  | cons a t ih =>
    intro sub i h1 h2
    cases i with
    | zero =>
      simp only [List.drop_zero] at h1
      have := List.isPrefixOf_iff_prefix.mpr h1
      simp [pyFind, this]
    | succ i' =>
      have hp : ¬ sub.isPrefixOf (a :: t) := by
        intro hc
        exact h2 0 (Nat.succ_pos _) (by simpa using List.isPrefixOf_iff_prefix.mp hc)
      simp only [pyFind]
      rw [if_neg hp]
      have hr := ih sub i' (by simpa using h1) (fun j hj => by
        have := h2 (j + 1) (by omega)
        simpa using this)
      rw [hr]
      rfl

theorem pyFind_some_le : ∀ s sub i, pyFind s sub = some i → i ≤ s.length := by
  intro s
  induction s with
  | nil =>
    intro sub i h
    by_cases hp : sub.isPrefixOf ([] : List Char)
    · simp only [pyFind, hp, if_true, Option.some.injEq] at h
      omega
    · simp [pyFind, hp] at h
  | cons a t ih =>
    intro sub i h
    by_cases hp : sub.isPrefixOf (a :: t)
    · simp only [pyFind, hp, if_true, Option.some.injEq] at h
      simp only [List.length_cons]
      omega
    · simp only [pyFind] at h
      rw [if_neg hp, Option.map_eq_some'] at h
      obtain ⟨i', hi', rfl⟩ := h
      have := ih sub i' hi'
      simp only [List.length_cons]
      omega

/-! ### Structure of `pySplitWs` / `normWs` (Python `' '.join(s.split())`) -/

theorem splitStep_ws_nil {a : Char} (h : pyIsSpace a = true) : splitStep a [] = [] := by
  unfold splitStep
  rw [if_pos h]

theorem splitStep_ws_nilhead {a : Char} (h : pyIsSpace a = true) (R : List (List Char)) :
    splitStep a ([] :: R) = [] :: R := by
  unfold splitStep
  rw [if_pos h]

theorem splitStep_ws_cons {a x : Char} (h : pyIsSpace a = true) (X : List Char)
    (R : List (List Char)) : splitStep a ((x :: X) :: R) = [] :: (x :: X) :: R := by
  unfold splitStep
  rw [if_pos h]

theorem splitStep_nws_nil {a : Char} (h : pyIsSpace a = false) : splitStep a [] = [[a]] := by
  unfold splitStep
  rw [if_neg (by simp [h])]

theorem splitStep_nws_cons {a : Char} (h : pyIsSpace a = false) (t : List Char)
    (R : List (List Char)) : splitStep a (t :: R) = (a :: t) :: R := by
  unfold splitStep
  rw [if_neg (by simp [h])]

theorem dropEmptyHead_nil : dropEmptyHead [] = [] := rfl

theorem dropEmptyHead_nilhead (R : List (List Char)) : dropEmptyHead ([] :: R) = R := rfl

theorem dropEmptyHead_cons (x : Char) (X : List Char) (R : List (List Char)) :
    dropEmptyHead ((x :: X) :: R) = (x :: X) :: R := rfl

theorem pySplitWs_nil : pySplitWs [] = [] := rfl

theorem pySplitWs_cons_ws {a : Char} (h : pyIsSpace a = true) (s : List Char) :
    pySplitWs (a :: s) = pySplitWs s := by
  show dropEmptyHead (splitStep a (s.foldr splitStep [])) = dropEmptyHead (s.foldr splitStep [])
  cases hF : s.foldr splitStep [] with
  | nil => rw [splitStep_ws_nil h]
  | cons t R =>
    cases t with
    | nil => rw [splitStep_ws_nilhead h]
    | cons x X => rw [splitStep_ws_cons h, dropEmptyHead_nilhead, dropEmptyHead_cons]

theorem foldrSplit_cons_nws_shape {b : Char} (hb : pyIsSpace b = false) (s' : List Char) :
    ∃ X R, (b :: s').foldr splitStep [] = (b :: X) :: R := by
  rw [List.foldr_cons]
  cases hF : s'.foldr splitStep [] with
  | nil => exact ⟨[], [], by rw [splitStep_nws_nil hb]⟩
  | cons t R => exact ⟨t, R, by rw [splitStep_nws_cons hb]⟩

theorem pySplitWs_eq_foldr_of_nws {b : Char} (hb : pyIsSpace b = false) (s' : List Char) :
    pySplitWs (b :: s') = (b :: s').foldr splitStep [] := by
  obtain ⟨X, R, hXR⟩ := foldrSplit_cons_nws_shape hb s'
  unfold pySplitWs
  rw [hXR, dropEmptyHead_cons]

theorem pySplitWs_cons_wsHead {a : Char} (ha : pyIsSpace a = false) (s : List Char)
    (hs : s = [] ∨ ∃ b r, s = b :: r ∧ pyIsSpace b = true) :
    pySplitWs (a :: s) = [a] :: pySplitWs s := by
  rcases hs with rfl | ⟨b, r, rfl, hb⟩
  · show dropEmptyHead (splitStep a (List.foldr splitStep [] [])) = [a] :: pySplitWs []
    rw [List.foldr_nil, splitStep_nws_nil ha, dropEmptyHead_cons, pySplitWs_nil]
  · show dropEmptyHead (splitStep a (splitStep b (r.foldr splitStep []))) =
      [a] :: dropEmptyHead (splitStep b (r.foldr splitStep []))
    cases hF : r.foldr splitStep [] with
    | nil =>
      rw [splitStep_ws_nil hb, splitStep_nws_nil ha, dropEmptyHead_cons, dropEmptyHead_nil]
    | cons t R =>
      cases t with
      | nil =>
        rw [splitStep_ws_nilhead hb, splitStep_nws_cons ha, dropEmptyHead_cons,
          dropEmptyHead_nilhead]
      | cons x X =>
        rw [splitStep_ws_cons hb, splitStep_nws_cons ha, dropEmptyHead_cons,
          dropEmptyHead_nilhead]

theorem pySplitWs_cons_nws {a : Char} (h : pyIsSpace a = false) (s : List Char) :
    pySplitWs (a :: s) =
      (a :: s.takeWhile (fun x => !pyIsSpace x)) :: pySplitWs (s.dropWhile (fun x => !pyIsSpace x)) := by
  induction s generalizing a with
  | nil =>
    show dropEmptyHead (splitStep a (List.foldr splitStep [] [])) = _
    rw [List.foldr_nil, splitStep_nws_nil h]
    rfl
  | cons b s' ih =>
    by_cases hb : pyIsSpace b = true
    · rw [List.takeWhile_cons_of_neg (by simp [hb]), List.dropWhile_cons_of_neg (by simp [hb])]
      exact pySplitWs_cons_wsHead h _ (Or.inr ⟨b, s', rfl, hb⟩)
    · have hb' : pyIsSpace b = false := by simpa using hb
      rw [List.takeWhile_cons_of_pos (by simp [hb']), List.dropWhile_cons_of_pos (by simp [hb'])]
      have hF : (b :: s').foldr splitStep [] =
          (b :: s'.takeWhile (fun x => !pyIsSpace x)) ::
            pySplitWs (s'.dropWhile (fun x => !pyIsSpace x)) := by
        rw [← pySplitWs_eq_foldr_of_nws hb' s', ih hb']
      show dropEmptyHead (splitStep a ((b :: s').foldr splitStep [])) = _
      rw [hF, splitStep_nws_cons h, dropEmptyHead_cons]

theorem pySplitWs_snoc_ws {a : Char} (h : pyIsSpace a = true) (s : List Char) :
    pySplitWs (s ++ [a]) = pySplitWs s := by
  unfold pySplitWs
  rw [List.foldr_append]
  have hFa : List.foldr splitStep [] [a] = [] := by
    rw [List.foldr_cons, List.foldr_nil, splitStep_ws_nil h]
  rw [hFa]

theorem spJoin_cons (t : List Char) (R : List (List Char)) :
    spJoin (t :: R) = t ++ (if R = [] then [] else ' ' :: spJoin R) := by
  cases R with
  | nil => simp [spJoin]
  | cons u ts => simp [spJoin]

theorem mem_pySplitWs_ne_nil : ∀ s t : List Char, t ∈ pySplitWs s → t ≠ [] := by
  intro s
  induction s with
  | nil => simp [pySplitWs_nil]
  | cons a s ih =>
    intro t ht
    by_cases ha : pyIsSpace a = true
    · rw [pySplitWs_cons_ws ha] at ht
      exact ih t ht
    · have ha' : pyIsSpace a = false := by simpa using ha
      cases s with
      | nil =>
        rw [pySplitWs_cons_wsHead ha' [] (Or.inl rfl), pySplitWs_nil] at ht
        simp only [List.mem_singleton] at ht
        subst ht
        simp
      | cons b s' =>
        by_cases hb : pyIsSpace b = true
        · rw [pySplitWs_cons_wsHead ha' (b :: s') (Or.inr ⟨b, s', rfl, hb⟩)] at ht
          rcases List.mem_cons.mp ht with rfl | hmem
          · simp
          · exact ih t hmem
        · have hb' : pyIsSpace b = false := by simpa using hb
          rw [pySplitWs_cons_nws ha'] at ht
          rw [List.takeWhile_cons_of_pos (by simp [hb']),
            List.dropWhile_cons_of_pos (by simp [hb'])] at ht
          rcases List.mem_cons.mp ht with rfl | hmem
          · simp
          · have hsub : t ∈ pySplitWs (b :: s') := by
              rw [pySplitWs_cons_nws hb']
              exact List.mem_cons_of_mem _ hmem
            exact ih t hsub

theorem pySplitWs_eq_nil_iff : ∀ s : List Char, pySplitWs s = [] ↔ ∀ c ∈ s, pyIsSpace c = true := by
  intro s
  induction s with
  | nil => simp [pySplitWs_nil]
  | cons a s ih =>
    by_cases ha : pyIsSpace a = true
    · rw [pySplitWs_cons_ws ha]
      simp only [List.mem_cons]
      constructor
      · intro h x hx
        rcases hx with rfl | hx
        · exact ha
        · exact ih.mp h x hx
      · intro h
        exact ih.mpr (fun x hx => h x (Or.inr hx))
    · have ha' : pyIsSpace a = false := by simpa using ha
      rw [pySplitWs_cons_nws ha']
      constructor
      · intro h
        exact absurd h (by simp)
      · intro h
        have := h a (List.mem_cons_self a s)
        rw [this] at ha'
        exact absurd ha' (by simp)

theorem normWs_nil : normWs [] = [] := rfl

theorem normWs_eq_nil_iff (s : List Char) : normWs s = [] ↔ pySplitWs s = [] := by
  unfold normWs
  constructor
  · intro h
    cases hs : pySplitWs s with
    | nil => rfl
    | cons t R =>
      rw [hs, spJoin_cons] at h
      have ht : t ≠ [] := mem_pySplitWs_ne_nil s t (by rw [hs]; exact List.mem_cons_self t R)
      rcases List.append_eq_nil.mp h with ⟨h1, _⟩
      exact absurd h1 ht
  · intro h
    rw [h]
    rfl

theorem normWs_cons_ws {a : Char} (h : pyIsSpace a = true) (s : List Char) :
    normWs (a :: s) = normWs s := by
  unfold normWs
  rw [pySplitWs_cons_ws h]

theorem normWs_single_nws {a : Char} (ha : pyIsSpace a = false) : normWs [a] = [a] := by
  unfold normWs
  rw [pySplitWs_cons_wsHead ha [] (Or.inl rfl), pySplitWs_nil]
  rfl

theorem normWs_cons_nws_nws {a b : Char} (ha : pyIsSpace a = false) (hb : pyIsSpace b = false)
    (r : List Char) : normWs (a :: b :: r) = a :: normWs (b :: r) := by
  unfold normWs
  rw [pySplitWs_cons_nws ha, pySplitWs_cons_nws hb]
  rw [List.takeWhile_cons_of_pos (by simp [hb]), List.dropWhile_cons_of_pos (by simp [hb])]
  rw [spJoin_cons, spJoin_cons]
  simp

theorem normWs_cons_nws_wshead {a : Char} (ha : pyIsSpace a = false) (s : List Char)
    (hs : s = [] ∨ ∃ b r, s = b :: r ∧ pyIsSpace b = true) :
    normWs (a :: s) = a :: (if normWs s = [] then [] else ' ' :: normWs s) := by
  have hL : normWs (a :: s) = spJoin ([a] :: pySplitWs s) := by
    unfold normWs
    rw [pySplitWs_cons_wsHead ha s hs]
  rw [hL, spJoin_cons]
  by_cases hnil : pySplitWs s = []
  · rw [if_pos hnil, if_pos ((normWs_eq_nil_iff s).mpr hnil)]
    simp
  · rw [if_neg hnil, if_neg (fun hc => hnil ((normWs_eq_nil_iff s).mp hc))]
    rfl

theorem normWs_suffix_cons (a : Char) (s : List Char) :
    ∃ u, normWs (a :: s) = u ++ normWs s := by
  by_cases ha : pyIsSpace a = true
  · refine ⟨[], ?_⟩
    rw [normWs_cons_ws ha]
    rfl
  · have ha' : pyIsSpace a = false := by simpa using ha
    cases s with
    | nil =>
      refine ⟨[a], ?_⟩
      rw [normWs_single_nws ha', normWs_nil]
      rfl
    | cons b r =>
      by_cases hb : pyIsSpace b = true
      · rw [normWs_cons_nws_wshead ha' (b :: r) (Or.inr ⟨b, r, rfl, hb⟩)]
        by_cases hnil : normWs (b :: r) = []
        · refine ⟨[a], ?_⟩
          rw [if_pos hnil, hnil]
          rfl
        · refine ⟨[a, ' '], ?_⟩
          rw [if_neg hnil]
          rfl
      · have hb' : pyIsSpace b = false := by simpa using hb
        refine ⟨[a], ?_⟩
        rw [normWs_cons_nws_nws ha' hb']
        rfl

theorem normWs_suffix_append (x : List Char) : ∀ c : List Char, ∃ u, normWs (x ++ c) = u ++ normWs c := by
  induction x with
  | nil => exact fun c => ⟨[], rfl⟩
  | cons a x ih =>
    intro c
    obtain ⟨u, hu⟩ := ih c
    obtain ⟨v, hv⟩ := normWs_suffix_cons a (x ++ c)
    exact ⟨v ++ u, by rw [List.cons_append, hv, hu, List.append_assoc]⟩

theorem normWs_snoc_ws {a : Char} (h : pyIsSpace a = true) (s : List Char) :
    normWs (s ++ [a]) = normWs s := by
  unfold normWs
  rw [pySplitWs_snoc_ws h]

theorem normWs_ne_nil_of_mem_nws {a : Char} (ha : pyIsSpace a = false) {s : List Char}
    (hmem : a ∈ s) : normWs s ≠ [] := by
  intro hc
  have := (pySplitWs_eq_nil_iff s).mp ((normWs_eq_nil_iff s).mp hc) a hmem
  rw [this] at ha
  exact absurd ha (by simp)

theorem normWs_snoc_nws {a : Char} (ha : pyIsSpace a = false) :
    ∀ s : List Char, ∃ u, normWs (s ++ [a]) = normWs s ++ u := by
  intro s
  induction s with
  | nil =>
    refine ⟨[a], ?_⟩
    simp only [List.nil_append]
    rw [normWs_single_nws ha, normWs_nil]
    rfl
  | cons c s' ih =>
    by_cases hc : pyIsSpace c = true
    · obtain ⟨u, hu⟩ := ih
      refine ⟨u, ?_⟩
      rw [List.cons_append, normWs_cons_ws hc, normWs_cons_ws hc, hu]
    · have hc' : pyIsSpace c = false := by simpa using hc
      cases s' with
      | nil =>
        refine ⟨[a], ?_⟩
        simp only [List.cons_append, List.nil_append]
        rw [normWs_cons_nws_nws hc' ha, normWs_single_nws ha, normWs_single_nws hc']
        rfl
      | cons d s'' =>
        obtain ⟨u, hu⟩ := ih
        simp only [List.cons_append] at hu
        by_cases hd : pyIsSpace d = true
        · have hne : normWs (d :: (s'' ++ [a])) ≠ [] :=
            normWs_ne_nil_of_mem_nws ha (by simp)
          by_cases hnil : normWs (d :: s'') = []
          · refine ⟨' ' :: u, ?_⟩
            simp only [List.cons_append]
            rw [normWs_cons_nws_wshead hc' (d :: (s'' ++ [a])) (Or.inr ⟨d, s'' ++ [a], rfl, hd⟩)]
            rw [normWs_cons_nws_wshead hc' (d :: s'') (Or.inr ⟨d, s'', rfl, hd⟩)]
            rw [if_neg hne, if_pos hnil, hu, hnil]
            simp
          · refine ⟨u, ?_⟩
            simp only [List.cons_append]
            rw [normWs_cons_nws_wshead hc' (d :: (s'' ++ [a])) (Or.inr ⟨d, s'' ++ [a], rfl, hd⟩)]
            rw [normWs_cons_nws_wshead hc' (d :: s'') (Or.inr ⟨d, s'', rfl, hd⟩)]
            rw [if_neg hne, if_neg hnil, hu]
            simp
        · have hd' : pyIsSpace d = false := by simpa using hd
          refine ⟨u, ?_⟩
          simp only [List.cons_append]
          rw [normWs_cons_nws_nws hc' hd', normWs_cons_nws_nws hc' hd', hu]
          simp

theorem normWs_snoc (a : Char) (s : List Char) :
    ∃ u, normWs (s ++ [a]) = normWs s ++ u := by
  by_cases h : pyIsSpace a = true
  · refine ⟨[], ?_⟩
    rw [normWs_snoc_ws h]
    simp
  · exact normWs_snoc_nws (by simpa using h) s

theorem normWs_append_right (c : List Char) : ∀ y : List Char, ∃ u, normWs (c ++ y) = normWs c ++ u := by
  intro y
  induction y using List.reverseRecOn with
  | nil => exact ⟨[], by simp⟩
  | append_singleton y a ih =>
    obtain ⟨u, hu⟩ := ih
    obtain ⟨v, hv⟩ := normWs_snoc a (c ++ y)
    exact ⟨u ++ v, by rw [← List.append_assoc, hv, hu, List.append_assoc]⟩

theorem normWs_infix_of_infix {c s : List Char} (h : c <:+: s) : normWs c <:+: normWs s := by
  obtain ⟨x, y, rfl⟩ := h
  obtain ⟨u, hu⟩ := normWs_suffix_append x (c ++ y)
  obtain ⟨v, hv⟩ := normWs_append_right c y
  refine ⟨u, v, ?_⟩
  have hR : normWs (x ++ c ++ y) = u ++ (normWs c ++ v) := by
    rw [List.append_assoc, hu, hv]
  rw [hR, List.append_assoc]

/-! ### `pyRfind`, line starts, `mapBack`, `pySlice`, and `find?` on ranges -/

theorem rfindAux_some : ∀ (l : List Char) (c : Char) (j : Nat),
    rfindAux l c = some j → j < l.length ∧ l.get? j = some c := by
  intro l
  induction l with
  | nil =>
    intro c j h
    simp [rfindAux] at h
  | cons a t ih =>
    intro c j h
    rw [rfindAux] at h
    cases ht : rfindAux t c with
    | some j' =>
      rw [ht] at h
      simp only [Option.some.injEq] at h
      subst h
      obtain ⟨h1, h2⟩ := ih c j' ht
      exact ⟨by simpa using h1, by simpa using h2⟩
    | none =>
      rw [ht] at h
      by_cases hac : a == c
      · rw [if_pos hac] at h
        simp only [Option.some.injEq] at h
        subst h
        refine ⟨by simp, ?_⟩
        simp only [List.get?_cons_zero, Option.some.injEq]
        exact eq_of_beq hac
      · rw [if_neg hac] at h
        exact absurd h (by simp)

theorem rfindAux_concat_self (c : Char) : ∀ l : List Char, rfindAux (l ++ [c]) c = some l.length := by
  intro l
  induction l with
  | nil =>
    rw [List.nil_append, rfindAux, rfindAux]
    simp
  | cons a t ih =>
    rw [List.cons_append, rfindAux, ih]
    simp

theorem lineStartAt_le (stored : List Char) (i : Nat) : lineStartAt stored i ≤ i := by
  unfold lineStartAt pyRfind
  cases h : rfindAux (stored.take i) '\n' with
  | none => exact Nat.zero_le i
  | some j =>
    obtain ⟨hj, _⟩ := rfindAux_some _ _ _ h
    rw [List.length_take] at hj
    show j + 1 ≤ i
    omega

theorem lineFrag_of_lineStart (stored : List Char) (i : Nat) (hi : i ≤ stored.length) :
    lineFrag stored (lineStartAt stored i) = [] := by
  unfold lineFrag
  rcases h : pyRfind stored '\n' i with _ | j
  · unfold lineStartAt
    rw [h]
    simp
  · unfold lineStartAt
    rw [h]
    unfold pyRfind at h ⊢
    obtain ⟨hj, hc⟩ := rfindAux_some _ _ _ h
    rw [List.length_take] at hj
    have hjlen : j < stored.length := by omega
    have hji : j < i := by omega
    have htake : stored.take (j + 1) = stored.take j ++ ['\n'] := by
      rw [List.take_succ]
      have : stored[j]? = some '\n' := by
        rw [← List.get?_eq_getElem?]
        rw [← hc]
        rw [List.get?_take hji]
      rw [this]
      rfl
    rw [htake, rfindAux_concat_self]
    have hlen : (stored.take j).length = j := by
      rw [List.length_take]
      omega
    rw [hlen]
    apply List.drop_eq_nil_of_le
    simp [List.length_take]

theorem wsRunLen_le (stored : List Char) {i : Nat} (hi : i < stored.length) :
    i + wsRunLen stored i ≤ stored.length := by
  unfold wsRunLen
  have h1 : ((stored.drop i).takeWhile pyIsSpace).length ≤ (stored.drop i).length :=
    (List.takeWhile_prefix pyIsSpace).length_le
  rw [List.length_drop] at h1
  omega

theorem mapBackStep_le {stored : List Char} {i : Nat} (h : i ≤ stored.length) :
    mapBackStep stored i ≤ stored.length := by
  unfold mapBackStep
  by_cases hlt : i < stored.length
  · rw [dif_pos hlt]
    by_cases hsp : pyIsSpace stored[i]
    · rw [if_pos hsp]
      exact wsRunLen_le stored hlt
    · rw [if_neg hsp]
      omega
  · rw [dif_neg hlt]
    exact h

theorem mapBack_le (stored : List Char) : ∀ (n i : Nat), i ≤ stored.length →
    mapBack stored i n ≤ stored.length := by
  intro n
  induction n with
  | zero =>
    intro i h
    exact h
  | succ n ih =>
    intro i h
    rw [mapBack]
    by_cases hlt : i < stored.length
    · rw [if_pos hlt]
      exact ih _ (mapBackStep_le h)
    · rw [if_neg hlt]
      exact h

theorem resolveStart_le (stored sel : List Char) (s0 : Nat)
    (h : resolveStart stored sel = some s0) : s0 ≤ stored.length := by
  unfold resolveStart at h
  cases h1 : pyFind stored sel with
  | some i =>
    rw [h1] at h
    simp only [Option.some.injEq] at h
    subst h
    exact pyFind_some_le stored sel _ h1
  | none =>
    rw [h1] at h
    cases h2 : pyFind (normWs stored) (normWs sel) with
    | none =>
      rw [h2] at h
      exact absurd h (by simp)
    | some ns =>
      rw [h2] at h
      simp only [Option.some.injEq] at h
      subst h
      exact mapBack_le stored ns 0 (Nat.zero_le _)

theorem pySlice_eq_drop_take (s : List Char) (a b : Nat) :
    pySlice s a b = (s.drop a).take (b - a) := by
  unfold pySlice
  rw [List.drop_take]

theorem pySlice_of_prefix {s sub : List Char} {i : Nat} (h : sub <+: s.drop i) :
    pySlice s i (i + sub.length) = sub := by
  rw [pySlice_eq_drop_take]
  obtain ⟨r, hr⟩ := h
  rw [← hr]
  simp

theorem length_pySlice {s : List Char} {a b : Nat} (hab : a ≤ b) (hb : b ≤ s.length) :
    (pySlice s a b).length = b - a := by
  unfold pySlice
  rw [List.length_drop, List.length_take]
  omega

theorem pySlice_append {s : List Char} {a b c : Nat} (hab : a ≤ b) (hbc : b ≤ c)
    (hb : b ≤ s.length) : pySlice s a c = pySlice s a b ++ pySlice s b c := by
  unfold pySlice
  have h1 : s.take c = s.take b ++ (s.take c).drop b := by
    have := List.take_append_drop b (s.take c)
    rw [List.take_take, Nat.min_eq_left hbc] at this
    exact this.symm
  conv_lhs => rw [h1]
  rw [List.drop_append_of_le_length (by rw [List.length_take]; omega)]

theorem pySlice_prefix_drop (s : List Char) (a b : Nat) : pySlice s a b <+: s.drop a := by
  rw [pySlice_eq_drop_take]
  exact List.take_prefix _ _

theorem find?_range'_some {p : Nat → Bool} : ∀ (n a k : Nat),
    (List.range' a n).find? p = some k →
    p k = true ∧ a ≤ k ∧ k < a + n ∧ ∀ j, a ≤ j → j < k → p j = false := by
  intro n
  induction n with
  | zero =>
    intro a k h
    simp [List.range'] at h
  | succ n ih =>
    intro a k h
    rw [List.range'_succ] at h
    by_cases ha : p a = true
    · rw [List.find?_cons_of_pos _ ha] at h
      simp only [Option.some.injEq] at h
      subst h
      exact ⟨ha, Nat.le_refl _, by omega, fun j h1 h2 => by omega⟩
    · rw [List.find?_cons_of_neg _ ha] at h
      obtain ⟨h1, h2, h3, h4⟩ := ih (a + 1) k h
      refine ⟨h1, by omega, by omega, ?_⟩
      intro j hj1 hj2
      rcases Nat.eq_or_lt_of_le hj1 with rfl | hj
      · simpa using ha
      · exact h4 j hj hj2

/-! ### The list-marker regex matches exactly the spec's marker shapes -/

theorem takeWhile_append_not {p : Char → Bool} : ∀ (l : List Char), (∀ x ∈ l, p x = true) →
    ∀ {b : Char}, p b = false → ∀ r : List Char, (l ++ b :: r).takeWhile p = l := by
  intro l
  induction l with
  | nil =>
    intro _ b hb r
    rw [List.nil_append, List.takeWhile_cons_of_neg (by simp [hb])]
  | cons c t ih =>
    intro hall b hb r
    rw [List.cons_append, List.takeWhile_cons_of_pos (hall c (List.mem_cons_self c t))]
    rw [ih (fun x hx => hall x (List.mem_cons_of_mem c hx)) hb r]

theorem isListMarker_iff (p : List Char) : isListMarker p = true ↔ SpecMarker p := by
  constructor
  · intro h
    cases p with
    | nil => simp [isListMarker] at h
    | cons c rest =>
      simp only [isListMarker] at h
      by_cases hc : (c == '*' || c == '-' || c == '+') = true
      · rw [if_pos hc] at h
        simp only [Bool.and_eq_true, Bool.not_eq_true'] at h
        obtain ⟨h1, h2⟩ := h
        right
        refine ⟨c, rest, rfl, ?_, ?_, ?_⟩
        · have hx : (c = '*' ∨ c = '-') ∨ c = '+' := by simpa [beq_iff_eq] using hc
          tauto
        · intro hcon
          rw [hcon] at h1
          simp at h1
        · intro x hx
          exact List.all_eq_true.mp h2 x hx
      · rw [if_neg hc] at h
        cases hd : (c :: rest).drop ((c :: rest).takeWhile pyIsDigit).length with
        | nil =>
          rw [hd] at h
          exact absurd h (by simp)
        | cons d w =>
          rw [hd] at h
          simp only [Bool.and_eq_true, Bool.not_eq_true', beq_iff_eq] at h
          obtain ⟨⟨⟨hds, hdot⟩, hw⟩, hws⟩ := h
          left
          subst hdot
          refine ⟨(c :: rest).takeWhile pyIsDigit, w, ?_, ?_, ?_, ?_, ?_⟩
          · have hsplit := List.takeWhile_append_dropWhile (p := pyIsDigit) (l := c :: rest)
            have h2 := List.drop_left ((c :: rest).takeWhile pyIsDigit)
              ((c :: rest).dropWhile pyIsDigit)
            rw [hsplit] at h2
            have hdw : (c :: rest).dropWhile pyIsDigit = '.' :: w := h2.symm.trans hd
            rw [hdw] at hsplit
            exact hsplit.symm
          · intro hcon
            rw [hcon] at hds
            simp at hds
          · intro x hx
            exact List.mem_takeWhile_imp hx
          · intro hcon
            rw [hcon] at hw
            simp at hw
          · intro x hx
            exact List.all_eq_true.mp hws x hx
  · intro h
    rcases h with ⟨ds, w, rfl, hds, hdig, hw, hws⟩ | ⟨c, w, rfl, hc, hw, hws⟩
    · cases ds with
      | nil => exact absurd rfl hds
      | cons d ds' =>
        have hd : pyIsDigit d = true := hdig d (List.mem_cons_self d ds')
        have hnb : (d == '*' || d == '-' || d == '+') = false := by
          simp only [Bool.or_eq_false_iff, beq_eq_false_iff_ne]
          refine ⟨⟨?_, ?_⟩, ?_⟩ <;> rintro rfl <;> exact absurd hd (by decide)
        have htw : List.takeWhile pyIsDigit (d :: (ds' ++ '.' :: w)) = d :: ds' := by
          have := takeWhile_append_not (d :: ds') hdig (show pyIsDigit '.' = false by decide) w
          rwa [List.cons_append] at this
        have hdrop : List.drop (d :: ds').length (d :: (ds' ++ '.' :: w)) = '.' :: w := by
          have := List.drop_left (d :: ds') ('.' :: w)
          rwa [List.cons_append] at this
        rw [List.cons_append]
        simp only [isListMarker]
        rw [if_neg (by simp only [hnb]; exact Bool.false_ne_true)]
        rw [htw, hdrop]
        simp only [Bool.and_eq_true, Bool.not_eq_true', beq_iff_eq]
        refine ⟨⟨⟨by simp, by trivial⟩, ?_⟩, List.all_eq_true.mpr hws⟩
        cases w with
        | nil => exact absurd rfl hw
        | cons x xs => simp
    · have hcb : (c == '*' || c == '-' || c == '+') = true := by
        rcases hc with rfl | rfl | rfl <;> simp
      simp only [isListMarker]
      rw [if_pos hcb]
      simp only [Bool.and_eq_true, Bool.not_eq_true']
      refine ⟨?_, List.all_eq_true.mpr hws⟩
      cases w with
      | nil => exact absurd rfl hw
      | cons x xs => simp

/-! ### The objectives-handler transcription agrees with the kernel one -/

theorem objMapBack_eq (stored : List Char) : ∀ n i, objMapBack stored i n = mapBack stored i n := by
  intro n
  induction n with
  | zero => intro i; rfl
  | succ n ih =>
    intro i
    rw [objMapBack, mapBack]
    by_cases hlt : i < stored.length
    · rw [dif_pos hlt, if_pos hlt]
      unfold mapBackStep
      rw [dif_pos hlt]
      by_cases hsp : pyIsSpace stored[i]
      · rw [if_pos hsp, if_pos hsp]
        unfold wsRunLen
        exact ih _
      · rw [if_neg hsp, if_neg hsp]
        exact ih _
    · rw [dif_neg hlt, if_neg hlt]

theorem objResolveStart_eq (stored sel : List Char) :
    objResolveStart stored sel = resolveStart stored sel := by
  unfold objResolveStart resolveStart
  cases pyFind stored sel with
  | some i => rfl
  | none =>
    cases pyFind (normWs stored) (normWs sel) with
    | none => rfl
    | some ns =>
      simp only [Option.some.injEq]
      exact objMapBack_eq stored ns 0

theorem objAdjStart_eq (stored : List Char) (s0 : Nat) :
    objAdjStart stored s0 = adjStart stored s0 := rfl

theorem objEndFix_eq (stored sel : List Char) (s1 e0 : Nat) :
    objEndFix stored sel s1 e0 = endFix stored sel s1 e0 := rfl

/-! ### Structure of `kernelResolve` -/

theorem kernelResolve_eq {stored sel : List Char} {s0 : Nat}
    (h : resolveStart stored sel = some s0) :
    kernelResolve stored sel =
      some (adjStart stored s0, endFix stored sel (adjStart stored s0) (s0 + sel.length)) := by
  unfold kernelResolve
  rw [h]

theorem kernelResolve_eq_none_iff (stored sel : List Char) :
    kernelResolve stored sel = none ↔ resolveStart stored sel = none := by
  unfold kernelResolve
  cases resolveStart stored sel <;> simp

theorem resolveStart_eq_none_iff (stored sel : List Char) :
    resolveStart stored sel = none ↔
      pyFind stored sel = none ∧ pyFind (normWs stored) (normWs sel) = none := by
  unfold resolveStart
  cases h1 : pyFind stored sel <;> cases h2 : pyFind (normWs stored) (normWs sel) <;> simp

/-! ### The claims -/

/-- Claim C10: for every stored document, resolving the empty selection text
never fails and returns the range `(0, 0)`: the exact search finds the empty
string at index 0, the list-marker expansion does not fire on the empty line
fragment, and the end-correction leaves the end at 0. -/
theorem c10_empty_selection (stored : List Char) : kernelResolve stored [] = some (0, 0) := by
  have h1 : pyFind stored [] = some 0 := by
    unfold pyFind
    rw [if_pos (by simp [List.isPrefixOf_iff_prefix])]
  have h2 : resolveStart stored [] = some 0 := by
    unfold resolveStart
    rw [h1]
  rw [kernelResolve_eq h2]
  have hfrag : lineFrag stored 0 = [] := by
    unfold lineFrag
    rw [List.take_zero]
    simp
  have hadj : adjStart stored 0 = 0 := by
    unfold adjStart
    rw [hfrag]
    rw [if_neg (by simp [isListMarker])]
  have hend : endFix stored ([] : List Char) 0 (0 + ([] : List Char).length) = 0 := by
    unfold endFix
    rw [if_pos (by simp [pySlice])]
    simp
  rw [hadj, hend]

/-- Claim C7: on `stored = "# Title\n\n1. Alpha step\n2. Beta step\n"` and
selection `"Beta step"`, resolution returns `(23, 35)`, whose slice is
`"2. Beta step"`, and replacing that range with `"Gamma step"` produces the
expected document. -/
theorem c7_end_to_end :
    kernelResolve "# Title\n\n1. Alpha step\n2. Beta step\n".toList "Beta step".toList =
        some (23, 35) ∧
      pySlice "# Title\n\n1. Alpha step\n2. Beta step\n".toList 23 35 = "2. Beta step".toList ∧
      "# Title\n\n1. Alpha step\n2. Beta step\n".toList.take 23 ++ "Gamma step".toList ++
          "# Title\n\n1. Alpha step\n2. Beta step\n".toList.drop 35 =
        "# Title\n\n1. Alpha step\nGamma step\n".toList := by
  refine ⟨by decide, by decide, by decide⟩

/-- Claim C3: resolution fails (the "could not locate selected text"
rejection) exactly when the whitespace-normalised selection text is not a
substring of the whitespace-normalised stored text; in particular
`stored = "abc"`, `sel = "xyz"` is rejected. -/
theorem c3_notfound_iff :
    (∀ stored sel : List Char,
      kernelResolve stored sel = none ↔ ¬ normWs sel <:+: normWs stored) ∧
      kernelResolve "abc".toList "xyz".toList = none := by
  constructor
  · intro stored sel
    rw [kernelResolve_eq_none_iff, resolveStart_eq_none_iff]
    constructor
    · rintro ⟨_, h2⟩
      exact (pyFind_eq_none _ _).mp h2
    · intro hni
      refine ⟨?_, (pyFind_eq_none _ _).mpr hni⟩
      cases h1 : pyFind stored sel with
      | none => rfl
      | some i =>
        exfalso
        apply hni
        have hpre := (pyFind_some stored sel i h1).1
        exact normWs_infix_of_infix
          (List.infix_iff_prefix_suffix.mpr ⟨_, hpre, List.drop_suffix i stored⟩)
  · decide

/-- Claim C9: the anchoring computation transcribed from the
objective-file handler agrees with the one transcribed from the
kernel-file handler on every input, both in the ranges produced and in
when they reject. -/
theorem c9_handlers_equivalent (stored sel : List Char) :
    objectiveResolve stored sel = kernelResolve stored sel := by
  unfold objectiveResolve kernelResolve
  rw [objResolveStart_eq]
  cases resolveStart stored sel with
  | none => rfl
  | some s0 =>
    simp only [objAdjStart_eq, objEndFix_eq]

theorem le_endFix {stored sel : List Char} {s1 e0 : Nat} (h : s1 ≤ e0) :
    s1 ≤ endFix stored sel s1 e0 := by
  unfold endFix
  by_cases hq : pySlice stored s1 e0 = sel
  · rw [if_pos hq]
    exact h
  · rw [if_neg hq]
    cases hf : (List.range' sel.length (stored.length - s1 + 1 - sel.length)).find?
        (fun k => normWs ((stored.drop s1).take k) == normWs sel) with
    | some k => exact Nat.le_add_right s1 k
    | none => exact h

theorem adjStart_le (stored : List Char) (s0 : Nat) : adjStart stored s0 ≤ s0 := by
  unfold adjStart
  by_cases hm : isListMarker (lineFrag stored s0) = true
  · rw [if_pos hm]
    exact lineStartAt_le stored s0
  · rw [if_neg hm]

/-- Claim C1 (amended): whenever resolution succeeds, `0 ≤ start ≤ end` and
`start ≤ len(stored)` hold; the claimed bound `end ≤ len(stored)` fails in
general (see the counterexample), because the whitespace-normalised
fallback's approximate end can overshoot the document. -/
theorem c1_range_invariant (stored sel : List Char) (s e : Nat)
    (h : kernelResolve stored sel = some (s, e)) : s ≤ e ∧ s ≤ stored.length := by
  cases h0 : resolveStart stored sel with
  | none =>
    unfold kernelResolve at h
    rw [h0] at h
    exact absurd h (by simp)
  | some s0 =>
    rw [kernelResolve_eq h0] at h
    simp only [Option.some.injEq, Prod.mk.injEq] at h
    obtain ⟨hs, he⟩ := h
    have hs0 : s0 ≤ stored.length := resolveStart_le stored sel s0 h0
    have hadj : adjStart stored s0 ≤ s0 := adjStart_le stored s0
    constructor
    · rw [← hs, ← he]
      exact le_endFix (by omega)
    · omega

/-- Claim C1, counterexample to the claim as stated: with
`stored = "ab cd"` and selection `"ab  cd"` resolution succeeds with range
`(0, 6)`, whose end exceeds the stored length `5`. -/
theorem c1_counterexample :
    kernelResolve "ab cd".toList "ab  cd".toList = some (0, 6) ∧
      "ab cd".toList.length = 5 := by
  refine ⟨by decide, by decide⟩

theorem c1_witness : 1 ≤ 2 ∧ 1 ≤ "ab".toList.length :=
  c1_range_invariant "ab".toList "b".toList 1 2 (by decide)

/-- Claim C2 (amended): if the selection text equals `stored[i:j]`, is
non-empty, and its first occurrence in `stored` is at `i`, then resolution
returns exactly `(i, j)` -- provided the text from the start of `i`'s line
up to `i` is not exactly a list marker. When that text is a list marker the
identity fails: the start is pulled back to the line start and the
end-correction step may then move the end as well, so neither endpoint of
the result is the claimed one in general (see the counterexample). -/
theorem c2_exact_match (stored sel : List Char) (i j : Nat)
    (hij : i ≤ j) (hj : j ≤ stored.length) (hsel : sel = pySlice stored i j) (_hne : sel ≠ [])
    (hmin : ∀ f, f < i → ¬ sel <+: stored.drop f)
    (hnm : isListMarker (lineFrag stored i) = false) :
    kernelResolve stored sel = some (i, j) := by
  have hfirst : sel <+: stored.drop i := by
    rw [hsel]
    exact pySlice_prefix_drop stored i j
  have hfind : pyFind stored sel = some i := pyFind_eq_some_of stored sel i hfirst hmin
  have h0 : resolveStart stored sel = some i := by
    unfold resolveStart
    rw [hfind]
  rw [kernelResolve_eq h0]
  have hlen : sel.length = j - i := by
    rw [hsel]
    exact length_pySlice hij hj
  have hadj : adjStart stored i = i := by
    unfold adjStart
    rw [if_neg (by simp [hnm])]
  have he0 : i + sel.length = j := by omega
  have hend : endFix stored sel i (i + sel.length) = i + sel.length := by
    unfold endFix
    rw [he0, if_pos hsel.symm]
  rw [hadj, hend, he0]

/-- Claim C2, counterexample to the claim as stated: `"a"` equals
`stored[2:3]` of `stored = "- a"` and first occurs at index 2, yet
resolution returns `(0, 3)` (the bullet marker is pulled into the range),
not `(2, 3)`. -/
theorem c2_counterexample :
    "a".toList = pySlice "- a".toList 2 3 ∧
      "a".toList <+: "- a".toList.drop 2 ∧
      (∀ f, f < 2 → ¬ "a".toList <+: "- a".toList.drop f) ∧
      kernelResolve "- a".toList "a".toList = some (0, 3) := by
  refine ⟨by decide, by decide, ?_, by decide⟩
  intro f hf
  interval_cases f <;> decide

theorem c2_witness : kernelResolve "xa".toList "a".toList = some (1, 2) := by
  refine c2_exact_match "xa".toList "a".toList 1 2 (by decide) (by decide) (by decide)
    (by decide) ?_ (by decide)
  intro f hf
  interval_cases f
  decide

/-- Claim C4: once a match start is established, the start is pulled back to
the start of its line exactly when the line text before it is a list marker
(one or more decimal digits in the Unicode sense of the regex digit class,
a period, then whitespace; or `*`/`-`/`+` then whitespace), and is left
unchanged otherwise; concretely
`"1.  Why now\nmore text"` / `"Why now"` resolves with start 0, and
`"- Ship it\n"` / `"Ship it"` resolves with start 0. -/
theorem c4_marker_expansion :
    (∀ stored sel : List Char, ∀ s0 : Nat, resolveStart stored sel = some s0 →
      (SpecMarker (lineFrag stored s0) →
        ∃ e, kernelResolve stored sel = some (lineStartAt stored s0, e)) ∧
      (¬ SpecMarker (lineFrag stored s0) →
        ∃ e, kernelResolve stored sel = some (s0, e))) ∧
    kernelResolve "1.  Why now\nmore text".toList "Why now".toList = some (0, 11) ∧
    kernelResolve "- Ship it\n".toList "Ship it".toList = some (0, 9) := by
  refine ⟨?_, by decide, by decide⟩
  intro stored sel s0 h0
  constructor
  · intro hm
    have hadj : adjStart stored s0 = lineStartAt stored s0 := by
      unfold adjStart
      rw [if_pos ((isListMarker_iff _).mpr hm)]
    exact ⟨_, by rw [kernelResolve_eq h0, hadj]⟩
  · intro hm
    have hadj : adjStart stored s0 = s0 := by
      unfold adjStart
      rw [if_neg (fun hc => hm ((isListMarker_iff _).mp hc))]
    exact ⟨_, by rw [kernelResolve_eq h0, hadj]⟩

theorem c4_witness :
    ∃ e, kernelResolve "- x".toList "x".toList = some (lineStartAt "- x".toList 2, e) :=
  (c4_marker_expansion.1 "- x".toList "x".toList 2 (by decide)).1
    (Or.inr ⟨'-', [' '], by decide, Or.inr (Or.inl rfl), by decide, by decide⟩)

/-- Claim C5: when the literal slice differs from the selection text, the
end is re-derived as start plus the smallest offset in
`[len(sel), len(stored) - start]` whose whitespace-normalised slice equals
the normalised selection; when no such offset exists the end keeps its
previous value `start-of-match + len(sel)`, and resolution still succeeds. -/
theorem c5_end_correction (stored sel : List Char) (s0 : Nat)
    (h0 : resolveStart stored sel = some s0)
    (hdiff : pySlice stored (adjStart stored s0) (s0 + sel.length) ≠ sel) :
    (∀ k, sel.length ≤ k → k ≤ stored.length - adjStart stored s0 →
        normWs ((stored.drop (adjStart stored s0)).take k) = normWs sel →
      ∃ km, (sel.length ≤ km ∧ km ≤ stored.length - adjStart stored s0 ∧
          normWs ((stored.drop (adjStart stored s0)).take km) = normWs sel) ∧
        km ≤ k ∧
        kernelResolve stored sel = some (adjStart stored s0, adjStart stored s0 + km)) ∧
    ((∀ k, sel.length ≤ k → k ≤ stored.length - adjStart stored s0 →
        normWs ((stored.drop (adjStart stored s0)).take k) ≠ normWs sel) →
      kernelResolve stored sel = some (adjStart stored s0, s0 + sel.length)) := by
  have hble : adjStart stored s0 ≤ s0 := adjStart_le stored s0
  have hs0 : s0 ≤ stored.length := resolveStart_le stored sel s0 h0
  constructor
  · intro k hk1 hk2 hk3
    cases hf : (List.range' sel.length (stored.length - adjStart stored s0 + 1 - sel.length)).find?
        (fun k => normWs ((stored.drop (adjStart stored s0)).take k) == normWs sel) with
    | none =>
      exfalso
      have hall := List.find?_eq_none.mp hf k
      have hmem : k ∈ List.range' sel.length (stored.length - adjStart stored s0 + 1 - sel.length) := by
        rw [List.mem_range'_1]
        omega
      have := hall hmem
      rw [beq_iff_eq] at this
      exact this hk3
    | some km =>
      obtain ⟨hp, hlo, hhi, hmin⟩ := find?_range'_some _ _ _ hf
      rw [beq_iff_eq] at hp
      refine ⟨km, ⟨hlo, by omega, hp⟩, ?_, ?_⟩
      · by_contra hlt
        have := hmin k hk1 (by omega)
        rw [beq_eq_false_iff_ne] at this
        exact this hk3
      · rw [kernelResolve_eq h0]
        have hend : endFix stored sel (adjStart stored s0) (s0 + sel.length) =
            adjStart stored s0 + km := by
          unfold endFix
          rw [if_neg hdiff, hf]
        rw [hend]
  · intro hnone
    rw [kernelResolve_eq h0]
    have hend : endFix stored sel (adjStart stored s0) (s0 + sel.length) = s0 + sel.length := by
      unfold endFix
      rw [if_neg hdiff]
      cases hf : (List.range' sel.length (stored.length - adjStart stored s0 + 1 - sel.length)).find?
          (fun k => normWs ((stored.drop (adjStart stored s0)).take k) == normWs sel) with
      | none => rfl
      | some km =>
        exfalso
        obtain ⟨hp, hlo, hhi, _⟩ := find?_range'_some _ _ _ hf
        rw [beq_iff_eq] at hp
        exact hnone km hlo (by omega) hp
    rw [hend]

theorem c5_witness :
    ∃ km, (("a b".toList.length ≤ km ∧
        km ≤ "a  b".toList.length - adjStart "a  b".toList 0 ∧
        normWs (("a  b".toList.drop (adjStart "a  b".toList 0)).take km) = normWs "a b".toList)) ∧
      km ≤ 4 ∧
      kernelResolve "a  b".toList "a b".toList =
        some (adjStart "a  b".toList 0, adjStart "a  b".toList 0 + km) :=
  (c5_end_correction "a  b".toList "a b".toList 0 (by decide) (by decide)).1 4
    (by decide) (by decide) (by decide)

/-- Claim C6 (amended): for every stored document containing the literal
`"foo   bar"`, resolving `"foo bar"` succeeds (never NotFound); for
`stored = "foo   bar"` itself the result is `(0, 9)` and the resolved
slice, whitespace-normalised, equals the normalised selection. The
normalised-slice equality does not hold for every containing document
(see the counterexample). -/
theorem c6_whitespace_insensitive :
    (∀ stored : List Char, "foo   bar".toList <:+: stored →
      ∃ r, kernelResolve stored "foo bar".toList = some r) ∧
    kernelResolve "foo   bar".toList "foo bar".toList = some (0, 9) ∧
    normWs (pySlice "foo   bar".toList 0 9) = normWs "foo bar".toList := by
  refine ⟨?_, by decide, by decide⟩
  intro stored hinf
  have hn : normWs "foo bar".toList <:+: normWs stored := by
    have h1 := normWs_infix_of_infix hinf
    have h2 : normWs "foo   bar".toList = normWs "foo bar".toList := by decide
    rwa [h2] at h1
  cases h0 : resolveStart stored "foo bar".toList with
  | some s0 => exact ⟨_, kernelResolve_eq h0⟩
  | none =>
    exfalso
    obtain ⟨_, h2⟩ := (resolveStart_eq_none_iff _ _).mp h0
    exact (pyFind_eq_none _ _).mp h2 hn

/-- Claim C6, counterexample to the claim as stated: the document
`"- foo bar x foo   bar"` contains `"foo   bar"`, resolution of
`"foo bar"` succeeds with `(0, 9)`, but the resolved slice `"- foo bar"`
does not normalise to `"foo bar"`. -/
theorem c6_counterexample :
    "foo   bar".toList <:+: "- foo bar x foo   bar".toList ∧
      kernelResolve "- foo bar x foo   bar".toList "foo bar".toList = some (0, 9) ∧
      normWs (pySlice "- foo bar x foo   bar".toList 0 9) ≠ normWs "foo bar".toList := by
  refine ⟨⟨"- foo bar x ".toList, [], by decide⟩, by decide, by decide⟩

theorem c6_witness : ∃ r, kernelResolve "xx foo   bar yy".toList "foo bar".toList = some r :=
  c6_whitespace_insensitive.1 "xx foo   bar yy".toList ⟨"xx ".toList, " yy".toList, by decide⟩

/-- Claim C8 (amended): resolution is idempotent on its own output whenever
the first resolution locates the selection text literally (exact-match
path) and returns end `= start-of-match + len(sel)`: re-resolving the
returned slice yields the same `(start, end)`. On the normalised fallback
path the end can overshoot the document and idempotence fails (see the
counterexample). -/
theorem c8_idempotent (stored sel : List Char) (s0 s e : Nat)
    (hfind : pyFind stored sel = some s0)
    (hres : kernelResolve stored sel = some (s, e))
    (hend : e = s0 + sel.length) :
    kernelResolve stored (pySlice stored s e) = some (s, e) := by
  have h0 : resolveStart stored sel = some s0 := by
    unfold resolveStart
    rw [hfind]
  rw [kernelResolve_eq h0] at hres
  simp only [Option.some.injEq, Prod.mk.injEq] at hres
  obtain ⟨hs, he⟩ := hres
  have hpre : sel <+: stored.drop s0 := (pyFind_some _ _ _ hfind).1
  have hmin := (pyFind_some _ _ _ hfind).2
  have hs0len : s0 ≤ stored.length := pyFind_some_le _ _ _ hfind
  have hselen : s0 + sel.length ≤ stored.length := by
    have := hpre.length_le
    rw [List.length_drop] at this
    omega
  by_cases hm : isListMarker (lineFrag stored s0) = true
  · -- the list-marker pull-back fired: s is the line start
    have hadj : adjStart stored s0 = lineStartAt stored s0 := by
      unfold adjStart
      rw [if_pos hm]
    have hsls : s = lineStartAt stored s0 := by rw [← hs, hadj]
    subst hsls
    have hlsle : lineStartAt stored s0 ≤ s0 := lineStartAt_le stored s0
    have hsplit : pySlice stored (lineStartAt stored s0) e =
        pySlice stored (lineStartAt stored s0) s0 ++ pySlice stored s0 e := by
      rw [hend]
      exact pySlice_append hlsle (Nat.le_add_right _ _) hs0len
    have hps : pySlice stored s0 e = sel := by
      rw [hend]
      exact pySlice_of_prefix hpre
    have hfraglen : (pySlice stored (lineStartAt stored s0) s0).length = s0 - lineStartAt stored s0 :=
      length_pySlice hlsle hs0len
    have hTpre : pySlice stored (lineStartAt stored s0) e <+: stored.drop (lineStartAt stored s0) :=
      pySlice_prefix_drop stored _ e
    have hTmin : ∀ f, f < lineStartAt stored s0 →
        ¬ pySlice stored (lineStartAt stored s0) e <+: stored.drop f := by
      intro f hf hc
      rw [hsplit, hps] at hc
      obtain ⟨r, hr⟩ := hc
      have hd : stored.drop (f + (s0 - lineStartAt stored s0)) = sel ++ r := by
        rw [← List.drop_drop, ← hr, List.append_assoc, ← hfraglen]
        exact List.drop_left _ _
      have hsub : sel <+: stored.drop (f + (s0 - lineStartAt stored s0)) := by
        rw [hd]
        exact ⟨r, rfl⟩
      exact hmin (f + (s0 - lineStartAt stored s0)) (by omega) hsub
    have hTfind : pyFind stored (pySlice stored (lineStartAt stored s0) e) =
        some (lineStartAt stored s0) :=
      pyFind_eq_some_of _ _ _ hTpre hTmin
    have hT0 : resolveStart stored (pySlice stored (lineStartAt stored s0) e) =
        some (lineStartAt stored s0) := by
      unfold resolveStart
      rw [hTfind]
    rw [kernelResolve_eq hT0]
    have hfragls : lineFrag stored (lineStartAt stored s0) = [] :=
      lineFrag_of_lineStart stored s0 hs0len
    have hadj2 : adjStart stored (lineStartAt stored s0) = lineStartAt stored s0 := by
      unfold adjStart
      rw [hfragls]
      rw [if_neg (by simp [isListMarker])]
    have hTlen : (pySlice stored (lineStartAt stored s0) e).length = e - lineStartAt stored s0 :=
      length_pySlice (by omega) (by omega)
    have hlse : lineStartAt stored s0 + (pySlice stored (lineStartAt stored s0) e).length = e := by
      omega
    have hend2 : endFix stored (pySlice stored (lineStartAt stored s0) e)
        (lineStartAt stored s0)
        (lineStartAt stored s0 + (pySlice stored (lineStartAt stored s0) e).length) =
        lineStartAt stored s0 + (pySlice stored (lineStartAt stored s0) e).length := by
      unfold endFix
      rw [if_pos (by rw [hlse])]
    rw [hadj2, hend2, hlse, ← he, ← hadj]
  · -- no pull-back: the slice is the selection text itself
    have hadj : adjStart stored s0 = s0 := by
      unfold adjStart
      rw [if_neg (by simp [hm])]
    have hslice : pySlice stored s e = sel := by
      rw [← hs, hadj, hend]
      exact pySlice_of_prefix hpre
    rw [hslice, kernelResolve_eq h0, he, hs]

/-- Claim C8, counterexample to the claim as stated: resolving
`"ab  cd"` in `"ab cd"` succeeds with `(0, 6)`, but re-resolving the
returned slice `stored[0:6] = "ab cd"` yields `(0, 5)`, a different
range. -/
theorem c8_counterexample :
    kernelResolve "ab cd".toList "ab  cd".toList = some (0, 6) ∧
      kernelResolve "ab cd".toList (pySlice "ab cd".toList 0 6) = some (0, 5) := by
  refine ⟨by decide, by decide⟩

theorem c8_witness : kernelResolve "- a\n".toList (pySlice "- a\n".toList 0 3) = some (0, 3) :=
  c8_idempotent "- a\n".toList "a".toList 2 0 3 (by decide) (by decide) (by decide)
